import Mathlib

/-!
Verification of the model-selection strategy layer and recognition loop
of the AIND sign-language recognizer (`my_model_selectors.py`,
`my_recognizer.py`).

Shallow embedding conventions:
* A frame of observations is abstracted as an integer; a training sequence
  is a `List ℤ` of frames; the concatenated form is a `List ℤ` together
  with a `List ℕ` of per-sequence lengths.
* Log-likelihood scores are rationals (`ℚ`); the recognizer additionally
  uses `WithBot ℚ` so that Python's `float("-inf")` is `⊥`.
* The external `hmmlearn` fitting/scoring primitive is a parameter
  (`HmmEnv`): `fitTag` returns `none` exactly when `GaussianHMM(...).fit`
  raises (caught by `base_model`, which then returns `None`), and `score`
  returns `none` exactly when `model.score` raises.  `np.log` on the frame
  count is likewise an abstract `ℚ`-valued parameter.
* Python's `try/except` skip paths become `Option`/`Except` matches; an
  uncaught exception propagating out of `select` is `Except.error ()`.
-/

/-- A fitted `GaussianHMM`.  `n_components` is the hidden-state count the
model was constructed with (readable, per the external interface); `tag`
distinguishes distinct fitted objects produced by the library. -/
structure GModel where
  n_components : ℕ
  tag : ℕ
deriving DecidableEq, Repr

/-- A Python value that may be passed where a model is expected: either an
actual fitted model or a plain `int` (dynamic typing).  `SelectorDIC.select`
passes `n_components`, an `int`, as the `hmm_model` argument. -/
inductive PyVal where
  | model (m : GModel)
  | int (n : ℕ)
deriving DecidableEq, Repr

/-- The external fitting/scoring primitive (`hmmlearn`) plus `np.log`.
`fitTag` is `none` when fitting raises; `score` is `none` when scoring
raises; `log` abstracts `np.log` evaluated on a frame count. -/
structure HmmEnv where
  fitTag : ℕ → List ℤ → List ℕ → Option ℕ
  score : GModel → List ℤ → List ℕ → Option ℚ
  log : ℕ → ℚ

/-- `GaussianHMM(n_components=n, ...).fit(X, lengths)`: on success the
fitted model carries the requested state count. -/
def fit (env : HmmEnv) (n : ℕ) (X : List ℤ) (lengths : List ℕ) : Option GModel :=
  (env.fitTag n X lengths).map (fun t => ⟨n, t⟩)

/-- Calling `.score(X, lengths)` on a `PyVal`: an `int` has no `score`
attribute, so the call raises (`none`); a model delegates to the library. -/
def pyScore (env : HmmEnv) : PyVal → List ℤ → List ℕ → Option ℚ
  | PyVal.model m, X, lengths => env.score m X lengths
  | PyVal.int _, _, _ => none

/-- Modelled from the spec: `asl_utils.combine_sequences` (corpus source,
not under `src/`) — given fold indices and the per-sequence list, return
the concatenated observations of the selected sequences and their
per-sequence length list. -/
def combine_sequences (idxs : List ℕ) (sequences : List (List ℤ)) :
    List ℤ × List ℕ :=
  ((idxs.map (fun i => sequences.getD i [])).flatten,
   idxs.map (fun i => (sequences.getD i []).length))

/-- Modelled from the spec: `sklearn.model_selection.KFold` (fold
partitioner, not under `src/`) — for `n` items and `k` splits, yield `k`
(train-indices, test-indices) pairs with contiguous non-overlapping test
partitions covering all items; report failure (raise) when `n < k`. -/
def kfoldSplit (k n : ℕ) : Option (List (List ℕ × List ℕ)) :=
  if n < k then none
  else some ((List.range k).map (fun i =>
    let start := i * (n / k) + min i (n % k)
    let size := n / k + if i < n % k then 1 else 0
    ((List.range n).filter (fun j => j < start ∨ start + size ≤ j),
     List.range' start size)))

/-- The state of a `ModelSelector` instance: the full corpus in iteration
order (each word with its concatenated observations and lengths, i.e. the
content of `self.hwords`), this word's name, its per-sequence list
(`self.sequences`), its concatenated form (`self.X`, `self.lengths`), and
the candidate-range configuration. -/
structure Selector where
  words : List (String × List ℤ × List ℕ)
  this_word : String
  sequences : List (List ℤ)
  X : List ℤ
  lengths : List ℕ
  n_constant : ℕ
  min_n_components : ℕ
  max_n_components : ℕ
deriving Repr

/-- The candidate state counts visited by the selector loops: `n` starts at
`min_n_components` and increments while `n ≤ max_n_components`. -/
def candidates (s : Selector) : List ℕ :=
  (List.range (s.max_n_components + 1 - s.min_n_components)).map
    (· + s.min_n_components)

/-- `ModelSelector.base_model`: fit a model with the given state count on
the selector's current concatenated data; return `None` on any failure. -/
def base_model (env : HmmEnv) (s : Selector) (num_states : ℕ) : Option GModel :=
  fit env num_states s.X s.lengths

/-- Python's `max(iterable, key=...)` over the entries of a dict in
insertion order: keep the current best, replacing it only when a later
value is strictly greater (so the first maximal entry wins ties). -/
def pyBest {κ β : Type} [LinearOrder β] : κ × β → List (κ × β) → κ × β
  | best, [] => best
  | best, p :: ps => pyBest (if best.2 < p.2 then p else best) ps

/-- `max(model_list, key=lambda i: model_list[i])`: the first key attaining
the maximal value; raises (`none`) on an empty dict. -/
def pyArgmaxKeys {κ β : Type} [LinearOrder β] : List (κ × β) → Option κ
  | [] => none
  | p :: ps => some (pyBest p ps).1

/-- `SelectorConstant.select`: unconditionally `base_model(n_constant)`. -/
def selectConstant (env : HmmEnv) (s : Selector) : Option GModel :=
  base_model env s s.n_constant

/-- `SelectorBIC.scoreBIC`: `-2 * logL + p * np.log(N)`. -/
def scoreBIC (env : HmmEnv) (logLike : ℚ) (number_of_parameters : ℕ)
    (number_of_data_points : ℕ) : ℚ :=
  -2 * logLike + number_of_parameters * env.log number_of_data_points

/-- One iteration of the `SelectorBIC.select` while-loop: fit, score on the
word's own data, record `model ↦ BIC` in the dict; any failure (fit
returning `None`, or `score` raising) skips this candidate. -/
def bicStep (env : HmmEnv) (s : Selector) (ml : List (GModel × ℚ)) (n : ℕ) :
    List (GModel × ℚ) :=
  match base_model env s n with
  | none => ml
  | some m =>
    match env.score m s.X s.lengths with
    | none => ml
    | some logL => ml ++ [(m, scoreBIC env logL n s.X.length)]

/-- The `model_list` dict built by `SelectorBIC.select` (insertion order). -/
def bicList (env : HmmEnv) (s : Selector) : List (GModel × ℚ) :=
  (candidates s).foldl (bicStep env s) []

/-- `SelectorBIC.select`: build `model_list`; if empty, fall back to
`base_model(n_constant)`; otherwise return the key of maximal stored
value (the stored value being the raw BIC). -/
def selectBIC (env : HmmEnv) (s : Selector) : Option GModel :=
  match pyArgmaxKeys (bicList env s) with
  | none => base_model env s s.n_constant
  | some m => some m

/-- `SelectorDIC.calculate_avgscore_otherwords`: start `num_words` at
`len(self.words) - 1`; for each word other than `except_this_word`, try
`hmm_model.score` on that word's data, accumulating the score on success
and decrementing `num_words` on failure; finally divide by `num_words`
when positive, else return `0`. -/
def calculate_avgscore_otherwords (env : HmmEnv)
    (words : List (String × List ℤ × List ℕ)) (except_this_word : String)
    (hmm_model : PyVal) : ℚ :=
  let r := words.foldl
    (fun (acc : ℚ × ℤ) w =>
      if w.1 = except_this_word then acc
      else
        match pyScore env hmm_model w.2.1 w.2.2 with
        | some sc => (acc.1 + sc, acc.2)
        | none => (acc.1, acc.2 - 1))
    (0, (words.length : ℤ) - 1)
  if 0 < r.2 then r.1 / (r.2 : ℚ) else 0

/-- One iteration of the `SelectorDIC.select` while-loop.  Note the source
passes `n_components` — a plain `int`, wrapped here as `PyVal.int n` — as
the `hmm_model` argument of `calculate_avgscore_otherwords`, not the
fitted model. -/
def dicStep (env : HmmEnv) (s : Selector) (ml : List (GModel × ℚ)) (n : ℕ) :
    List (GModel × ℚ) :=
  match base_model env s n with
  | none => ml
  | some m =>
    match env.score m s.X s.lengths with
    | none => ml
    | some ownLL =>
      ml ++ [(m, ownLL -
        calculate_avgscore_otherwords env s.words s.this_word (PyVal.int n))]

/-- The `model_list` dict built by `SelectorDIC.select` (insertion order). -/
def dicList (env : HmmEnv) (s : Selector) : List (GModel × ℚ) :=
  (candidates s).foldl (dicStep env s) []

/-- `SelectorDIC.select`: build `model_list`; if empty, fall back to
`base_model(n_constant)`; otherwise return the key of maximal stored
value. -/
def selectDIC (env : HmmEnv) (s : Selector) : Option GModel :=
  match pyArgmaxKeys (dicList env s) with
  | none => base_model env s s.n_constant
  | some m => some m

/-- The assignment `self.X, self.lengths = combine_sequences(idxs,
self.sequences)` performed inside the `SelectorCV.select` fold loop. -/
def setXlen (s : Selector) (idxs : List ℕ) : Selector :=
  { s with X := (combine_sequences idxs s.sequences).1,
           lengths := (combine_sequences idxs s.sequences).2 }

/-- The inner fold loop of `SelectorCV.select` for one candidate `n`:
for each `(train, test)` fold, overwrite `self.X, self.lengths` with the
combined train partition, refit (`base_model(n)` reads the overwritten
state), combine the test partition and score; accumulate the held-out
score and remember the most recent fitted model.  A fit returning `None`
(so `None.score` raises) or a scoring failure raises out of the fold loop,
leaving the mutated state behind (`Except.error`). -/
def runFolds (env : HmmEnv) (n : ℕ) :
    List (List ℕ × List ℕ) → Selector → ℚ → Option GModel →
    Selector × Except Unit (ℚ × Option GModel)
  | [], s, acc, last => (s, Except.ok (acc, last))
  | fold :: rest, s, acc, _ =>
    match base_model env (setXlen s fold.1) n with
    | none => (setXlen s fold.1, Except.error ())
    | some m =>
      match env.score m (combine_sequences fold.2 s.sequences).1
          (combine_sequences fold.2 s.sequences).2 with
      | none => (setXlen s fold.1, Except.error ())
      | some sc => runFolds env n rest (setXlen s fold.1) (acc + sc) (some m)

/-- The `SelectorCV.select` while-loop over candidates, with fuel
`max_n_components + 1 - n`: each iteration partitions this word's
sequences with `KFold(3)` (raising when there are fewer than 3), runs the
folds, divides the accumulated score by `N_SPLITS = 3`, and records
`model_list[hmm_model] = average` — the key being the last fold's model
(still `None` only if there were no folds).  Any raise aborts the whole
loop with the state as mutated so far. -/
def cvLoop (env : HmmEnv) :
    ℕ → ℕ → Selector → List (Option GModel × ℚ) →
    Selector × Except Unit (List (Option GModel × ℚ))
  | 0, _, s, ml => (s, Except.ok ml)
  | fuel + 1, n, s, ml =>
    match kfoldSplit 3 s.sequences.length with
    | none => (s, Except.error ())
    | some folds =>
      match runFolds env n folds s 0 none with
      | (s', Except.error _) => (s', Except.error ())
      | (s', Except.ok (total, last)) =>
        cvLoop env fuel (n + 1) s' (ml ++ [(last, total / 3)])

/-- `SelectorCV.select`.  The `try` wraps the entire while-loop: any raise
inside it falls back to `base_model(n_constant)` on the current (possibly
mutated) state.  After a normal loop exit, `max(model_list, ...)` raises
on an empty dict (candidate range empty), and the subsequent
`result_model.n_components` access raises if the chosen key were `None`;
both propagate to the caller (`Except.error`).  The returned pair is
(final selector state, outcome). -/
def selectCV (env : HmmEnv) (s : Selector) :
    Selector × Except Unit (Option GModel) :=
  match cvLoop env (s.max_n_components + 1 - s.min_n_components)
      s.min_n_components s [] with
  | (s', Except.error _) => (s', Except.ok (base_model env s' s.n_constant))
  | (s', Except.ok ml) =>
    match pyArgmaxKeys ml with
    | none => (s', Except.error ())
    | some none => (s', Except.error ())
    | some (some m) => (s', Except.ok (some m))

/-- One recognizer item's score dict: for each `(word, model)` of the
mapping in iteration order, the model's log-likelihood on the item, or
`-inf` (`⊥`) when scoring raises. -/
def scoreItem (env : HmmEnv) (models : List (String × GModel))
    (X : List ℤ) (lengths : List ℕ) : List (String × WithBot ℚ) :=
  models.map (fun wm =>
    (wm.1, match env.score wm.2 X lengths with
           | some sc => (sc : WithBot ℚ)
           | none => (⊥ : WithBot ℚ)))

/-- One iteration of the recognizer loop: build the item's score dict and
take `max(dict, key=...)` as the guess; with an empty model mapping the
`max` raises (`none`). -/
def recognizeItem (env : HmmEnv) (models : List (String × GModel))
    (item : List ℤ × List ℕ) : Option (List (String × WithBot ℚ) × String) :=
  let d := scoreItem env models item.1 item.2
  (pyArgmaxKeys d).map (fun g => (d, g))

/-- `my_recognizer.recognize`: iterate over the test items in word-id
order, appending each item's score dict to `probabilities` and its argmax
word to `guesses`; an item whose guess computation raises aborts the whole
call (`none`). -/
def recognize (env : HmmEnv) (models : List (String × GModel))
    (test_set : List (List ℤ × List ℕ)) :
    Option (List (List (String × WithBot ℚ)) × List String) :=
  (test_set.mapM (recognizeItem env models)).map
    (fun l => (l.map Prod.fst, l.map Prod.snd))

/-- The data-model invariant on a selector's two representations of this
word's training data: the concatenated observations are the flattening of
the per-sequence list and the length list records each sequence's length. -/
def SelInv (s : Selector) : Prop :=
  s.X = s.sequences.flatten ∧ s.lengths = s.sequences.map List.length

instance (s : Selector) : Decidable (SelInv s) := by
  unfold SelInv; infer_instance

/-- The state-count property of claim C9: the returned model's hidden-state
count lies in the candidate range or equals the fallback constant. -/
def okState (s : Selector) (m : GModel) : Prop :=
  (s.min_n_components ≤ m.n_components ∧
    m.n_components ≤ s.max_n_components) ∨ m.n_components = s.n_constant

instance (s : Selector) (m : GModel) : Decidable (okState s m) := by
  unfold okState; infer_instance

/-- `g` is the first key of `l` attaining the maximal value: `l` splits as
`l₁ ++ (g, v) :: l₂` with every value in `l₁` strictly below `v` and every
value in `l₂` at most `v`. -/
def IsFirstArgmax {κ β : Type} [LinearOrder β] (l : List (κ × β)) (g : κ) :
    Prop :=
  ∃ v l₁ l₂, l = l₁ ++ (g, v) :: l₂ ∧ (∀ p ∈ l₁, p.2 < v) ∧ ∀ p ∈ l₂, p.2 ≤ v

/-- Written from the claim's words (C2), for comparison with the code: the
average log-likelihood of the fitted model itself scored against every
other word's data, skipping words whose scoring fails and excluding them
from the denominator; `0` when every other word fails. -/
def avgOtherWordsSpec (env : HmmEnv)
    (words : List (String × List ℤ × List ℕ)) (except_this_word : String)
    (m : GModel) : ℚ :=
  let scored := (words.filter (fun w => w.1 ≠ except_this_word)).filterMap
    (fun w => env.score m w.2.1 w.2.2)
  if scored.length = 0 then 0 else scored.sum / (scored.length : ℚ)

/-- Written from the claim's words (C2): the DIC score of a fitted model
with own-word log-likelihood `ownLL`. -/
def dicScoreSpec (env : HmmEnv) (words : List (String × List ℤ × List ℕ))
    (except_this_word : String) (m : GModel) (ownLL : ℚ) : ℚ :=
  ownLL - avgOtherWordsSpec env words except_this_word m

/-- Written from the claim's words (C8): the model fit on one fold's
training partition of the given sequences. -/
def foldFit (env : HmmEnv) (seqs : List (List ℤ)) (n : ℕ)
    (fold : List ℕ × List ℕ) : Option GModel :=
  fit env n (combine_sequences fold.1 seqs).1 (combine_sequences fold.1 seqs).2

/-- Written from the claim's words (C8): the held-out log-likelihood of one
fold — the fold-trained model scored on the fold's test partition. -/
def foldScore (env : HmmEnv) (seqs : List (List ℤ)) (n : ℕ)
    (fold : List ℕ × List ℕ) : Option ℚ :=
  (foldFit env seqs n fold).bind
    (fun m => env.score m (combine_sequences fold.2 seqs).1
      (combine_sequences fold.2 seqs).2)

/-- Written from the claim's words (C8): the CV score of candidate `n` —
the sum of the per-fold held-out log-likelihoods divided by 3 (the number
of folds); failed folds contribute `0`, but the claims only use this under
the hypothesis that every fold succeeds. -/
def cvScoreSpec (env : HmmEnv) (seqs : List (List ℤ)) (n : ℕ)
    (folds : List (List ℕ × List ℕ)) : ℚ :=
  (folds.map (fun f => (foldScore env seqs n f).getD 0)).sum / 3

/-- Written from the claim's words (C8): the representative model recorded
for candidate `n` — the model fit on the final fold's training partition. -/
def cvReprModelSpec (env : HmmEnv) (seqs : List (List ℤ)) (n : ℕ)
    (folds : List (List ℕ × List ℕ)) : Option GModel :=
  folds.getLast?.bind (foldFit env seqs n)

/-- The concatenated/lengths pair of a selector state is derived from the
given sequence list by `combine_sequences` at some in-range index list —
the "derived, never independently mutated" shape of the data model. -/
def DerivedFromSeqs (seqs : List (List ℤ)) (s : Selector) : Prop :=
  s.sequences = seqs ∧
    ∃ idxs, (∀ i ∈ idxs, i < seqs.length) ∧
      s.X = (combine_sequences idxs seqs).1 ∧
      s.lengths = (combine_sequences idxs seqs).2

/-! ### Helper lemmas about the Python `max(…, key=…)` idiom -/

theorem pyBest_mem {κ β : Type} [LinearOrder β] (best : κ × β)
    (ps : List (κ × β)) : pyBest best ps ∈ best :: ps := by
  induction ps generalizing best with
  | nil => simp [pyBest]
  | cons p ps ih =>
    rw [pyBest]
    by_cases h : best.2 < p.2
    · rw [if_pos h]
      have := ih p
      simp only [List.mem_cons] at this ⊢
      tauto
    · rw [if_neg h]
      have := ih best
      simp only [List.mem_cons] at this ⊢
      tauto

theorem pyBest_split {κ β : Type} [LinearOrder β] (ps : List (κ × β))
    (best : κ × β) :
    ∃ l₁ l₂, best :: ps = l₁ ++ pyBest best ps :: l₂ ∧
      (∀ p ∈ l₁, p.2 < (pyBest best ps).2) ∧
      ∀ p ∈ l₂, p.2 ≤ (pyBest best ps).2 := by
  induction ps generalizing best with
  | nil => exact ⟨[], [], rfl, by simp, by simp⟩
  | cons p ps ih =>
    rw [pyBest]
    by_cases h : best.2 < p.2
    · rw [if_pos h]
      obtain ⟨l₁, l₂, he, h₁, h₂⟩ := ih p
      have hbr : best.2 < (pyBest p ps).2 := by
        rcases l₁ with _ | ⟨q, l₁'⟩
        · simp only [List.nil_append, List.cons.injEq] at he
          rw [← he.1]; exact h
        · simp only [List.cons_append, List.cons.injEq] at he
          have hp : p.2 < (pyBest p ps).2 := by
            have hq := h₁ q (List.mem_cons_self _ _)
            rw [← he.1] at hq
            exact hq
          exact h.trans hp
      refine ⟨best :: l₁, l₂, ?_, ?_, h₂⟩
      · rw [List.cons_append, ← he]
      · intro q hq
        rcases List.mem_cons.mp hq with rfl | hq'
        · exact hbr
        · exact h₁ q hq'
    · rw [if_neg h]
      have hple : p.2 ≤ best.2 := not_lt.mp h
      obtain ⟨l₁, l₂, he, h₁, h₂⟩ := ih best
      rcases l₁ with _ | ⟨q, l₁'⟩
      · simp only [List.nil_append, List.cons.injEq] at he
        refine ⟨[], p :: l₂, ?_, by simp, ?_⟩
        · simp [← he.1, ← he.2]
        · intro r hr
          rcases List.mem_cons.mp hr with rfl | hr'
          · rw [← he.1]; exact hple
          · exact h₂ r hr'
      · simp only [List.cons_append, List.cons.injEq] at he
        obtain ⟨hq, he2⟩ := he
        have hbest : best.2 < (pyBest best ps).2 := by
          have h' := h₁ q (List.mem_cons_self _ _)
          rw [← hq] at h'
          exact h'
        refine ⟨best :: p :: l₁', l₂, ?_, ?_, h₂⟩
        · rw [List.cons_append, List.cons_append, ← he2]
        · intro r hr
          rcases List.mem_cons.mp hr with rfl | hr'
          · exact hbest
          · rcases List.mem_cons.mp hr' with rfl | hr''
            · exact lt_of_le_of_lt hple hbest
            · have := h₁ r (List.mem_cons_of_mem _ hr'')
              exact this

theorem pyArgmaxKeys_firstArgmax {κ β : Type} [LinearOrder β]
    {l : List (κ × β)} {g : κ} (h : pyArgmaxKeys l = some g) :
    IsFirstArgmax l g := by
  match l with
  | [] => simp [pyArgmaxKeys] at h
  | p :: ps =>
    simp only [pyArgmaxKeys, Option.some.injEq] at h
    obtain ⟨l₁, l₂, he, h₁, h₂⟩ := pyBest_split ps p
    refine ⟨(pyBest p ps).2, l₁, l₂, ?_, h₁, h₂⟩
    rw [he, ← h]

theorem pyArgmaxKeys_mem {κ β : Type} [LinearOrder β]
    {l : List (κ × β)} {g : κ} (h : pyArgmaxKeys l = some g) :
    ∃ v, (g, v) ∈ l ∧ ∀ p ∈ l, p.2 ≤ v := by
  obtain ⟨v, l₁, l₂, he, h₁, h₂⟩ := pyArgmaxKeys_firstArgmax h
  refine ⟨v, by rw [he]; simp, ?_⟩
  intro p hp
  rw [he] at hp
  rcases List.mem_append.mp hp with hp' | hp'
  · exact (h₁ p hp').le
  · rcases List.mem_cons.mp hp' with rfl | hp''
    · exact le_rfl
    · exact h₂ p hp''

theorem pyArgmaxKeys_isSome {κ β : Type} [LinearOrder β]
    {l : List (κ × β)} (h : l ≠ []) : (pyArgmaxKeys l).isSome := by
  match l with
  | [] => exact absurd rfl h
  | p :: ps => simp [pyArgmaxKeys]

/-! ### Helper lemmas about the candidate range -/

theorem mem_candidates {s : Selector} {n : ℕ} :
    n ∈ candidates s ↔
      s.min_n_components ≤ n ∧ n ≤ s.max_n_components := by
  simp only [candidates, List.mem_map, List.mem_range]
  constructor
  · rintro ⟨k, hk, rfl⟩; omega
  · rintro ⟨h1, h2⟩; exact ⟨n - s.min_n_components, by omega, by omega⟩

theorem candidates_ne_nil {s : Selector}
    (h : s.min_n_components ≤ s.max_n_components) : candidates s ≠ [] := by
  have : s.min_n_components ∈ candidates s := mem_candidates.mpr ⟨le_rfl, h⟩
  intro he
  rw [he] at this
  exact absurd this (List.not_mem_nil _)

/-! ### Loop invariants of the BIC and DIC model lists -/

theorem bicStep_shape (env : HmmEnv) (s : Selector) (ml : List (GModel × ℚ))
    (n : ℕ) :
    bicStep env s ml n = ml ∨
      ∃ t q, bicStep env s ml n = ml ++ [(⟨n, t⟩, q)] := by
  rcases h : base_model env s n with _ | m
  · left
    unfold bicStep
    simp only [h]
  · have hm : ∃ t, m = ⟨n, t⟩ := by
      unfold base_model fit at h
      rcases ht : env.fitTag n s.X s.lengths with _ | t
      · rw [ht] at h; simp at h
      · rw [ht] at h
        simp only [Option.map_some', Option.some.injEq] at h
        exact ⟨t, h.symm⟩
    obtain ⟨t, rfl⟩ := hm
    rcases h2 : env.score ⟨n, t⟩ s.X s.lengths with _ | logL
    · left
      unfold bicStep
      simp only [h, h2]
    · right
      refine ⟨t, scoreBIC env logL n s.X.length, ?_⟩
      unfold bicStep
      simp only [h, h2]

theorem dicStep_shape (env : HmmEnv) (s : Selector) (ml : List (GModel × ℚ))
    (n : ℕ) :
    dicStep env s ml n = ml ∨
      ∃ t q, dicStep env s ml n = ml ++ [(⟨n, t⟩, q)] := by
  rcases h : base_model env s n with _ | m
  · left
    unfold dicStep
    simp only [h]
  · have hm : ∃ t, m = ⟨n, t⟩ := by
      unfold base_model fit at h
      rcases ht : env.fitTag n s.X s.lengths with _ | t
      · rw [ht] at h; simp at h
      · rw [ht] at h
        simp only [Option.map_some', Option.some.injEq] at h
        exact ⟨t, h.symm⟩
    obtain ⟨t, rfl⟩ := hm
    rcases h2 : env.score ⟨n, t⟩ s.X s.lengths with _ | ownLL
    · left
      unfold dicStep
      simp only [h, h2]
    · right
      refine ⟨t, ownLL -
        calculate_avgscore_otherwords env s.words s.this_word (PyVal.int n), ?_⟩
      unfold dicStep
      simp only [h, h2]

theorem bicList_aux_mem (env : HmmEnv) (s : Selector) :
    ∀ (L : List ℕ) (ml : List (GModel × ℚ)),
      ∀ p ∈ L.foldl (bicStep env s) ml,
        p ∈ ml ∨ ∃ n ∈ L, p.1.n_components = n := by
  intro L
  induction L with
  | nil => intro ml p hp; exact Or.inl hp
  | cons n L ih =>
    intro ml p hp
    rw [List.foldl_cons] at hp
    rcases ih (bicStep env s ml n) p hp with hin | ⟨k, hk, hkc⟩
    · rcases bicStep_shape env s ml n with he | ⟨t, q, he⟩
      · rw [he] at hin; exact Or.inl hin
      · rw [he] at hin
        rcases List.mem_append.mp hin with h' | h'
        · exact Or.inl h'
        · simp only [List.mem_singleton] at h'
          exact Or.inr ⟨n, List.mem_cons_self _ _, by rw [h']⟩
    · exact Or.inr ⟨k, List.mem_cons_of_mem _ hk, hkc⟩

theorem dicList_aux_mem (env : HmmEnv) (s : Selector) :
    ∀ (L : List ℕ) (ml : List (GModel × ℚ)),
      ∀ p ∈ L.foldl (dicStep env s) ml,
        p ∈ ml ∨ ∃ n ∈ L, p.1.n_components = n := by
  intro L
  induction L with
  | nil => intro ml p hp; exact Or.inl hp
  | cons n L ih =>
    intro ml p hp
    rw [List.foldl_cons] at hp
    rcases ih (dicStep env s ml n) p hp with hin | ⟨k, hk, hkc⟩
    · rcases dicStep_shape env s ml n with he | ⟨t, q, he⟩
      · rw [he] at hin; exact Or.inl hin
      · rw [he] at hin
        rcases List.mem_append.mp hin with h' | h'
        · exact Or.inl h'
        · simp only [List.mem_singleton] at h'
          exact Or.inr ⟨n, List.mem_cons_self _ _, by rw [h']⟩
    · exact Or.inr ⟨k, List.mem_cons_of_mem _ hk, hkc⟩

theorem bicList_mem (env : HmmEnv) (s : Selector) :
    ∀ p ∈ bicList env s, ∃ n ∈ candidates s, p.1.n_components = n := by
  intro p hp
  rcases bicList_aux_mem env s (candidates s) [] p hp with h | h
  · exact absurd h (List.not_mem_nil _)
  · exact h

theorem dicList_mem (env : HmmEnv) (s : Selector) :
    ∀ p ∈ dicList env s, ∃ n ∈ candidates s, p.1.n_components = n := by
  intro p hp
  rcases dicList_aux_mem env s (candidates s) [] p hp with h | h
  · exact absurd h (List.not_mem_nil _)
  · exact h

/-! ### Helper lemmas about the modelled fold partitioner -/

theorem kfoldSplit_length {k n : ℕ} {folds : List (List ℕ × List ℕ)}
    (h : kfoldSplit k n = some folds) : folds.length = k := by
  unfold kfoldSplit at h
  split_ifs at h
  simp only [Option.some.injEq] at h
  rw [← h, List.length_map, List.length_range]

theorem kfoldSplit_not_lt {k n : ℕ} {folds : List (List ℕ × List ℕ)}
    (h : kfoldSplit k n = some folds) : ¬n < k := by
  unfold kfoldSplit at h
  split_ifs at h with hk
  exact hk

theorem kfoldSplit_none {k n : ℕ} (h : n < k) : kfoldSplit k n = none := by
  unfold kfoldSplit
  rw [if_pos h]

theorem kfoldSplit_train_lt {k n : ℕ} {folds : List (List ℕ × List ℕ)}
    (h : kfoldSplit k n = some folds) :
    ∀ f ∈ folds, ∀ i ∈ f.1, i < n := by
  unfold kfoldSplit at h
  split_ifs at h
  simp only [Option.some.injEq] at h
  intro f hf i hi
  rw [← h] at hf
  obtain ⟨j, _, hfj⟩ := List.mem_map.mp hf
  rw [← hfj] at hi
  simp only [List.mem_filter, List.mem_range] at hi
  exact hi.1

/-! ### Helper lemmas about the cross-validation loops -/

theorem base_model_shape {env : HmmEnv} {s : Selector} {n : ℕ} {m : GModel}
    (h : base_model env s n = some m) : ∃ t, m = ⟨n, t⟩ := by
  unfold base_model fit at h
  rcases ht : env.fitTag n s.X s.lengths with _ | t
  · rw [ht] at h; simp at h
  · rw [ht] at h
    simp only [Option.map_some', Option.some.injEq] at h
    exact ⟨t, h.symm⟩

theorem setXlen_sequences (s : Selector) (idxs : List ℕ) :
    (setXlen s idxs).sequences = s.sequences := rfl

theorem derived_setXlen {seqs : List (List ℤ)} {s : Selector}
    (hseq : s.sequences = seqs) {idxs : List ℕ}
    (hb : ∀ i ∈ idxs, i < seqs.length) :
    DerivedFromSeqs seqs (setXlen s idxs) := by
  refine ⟨hseq, idxs, hb, ?_, ?_⟩ <;> simp [setXlen, hseq]

theorem runFolds_sequences (env : HmmEnv) (n : ℕ) :
    ∀ (folds : List (List ℕ × List ℕ)) (s : Selector) (acc : ℚ)
      (last : Option GModel),
      (runFolds env n folds s acc last).1.sequences = s.sequences := by
  intro folds
  induction folds with
  | nil => intro s acc last; rfl
  | cons fold rest ih =>
    intro s acc last
    rw [runFolds]
    rcases hbm : base_model env (setXlen s fold.1) n with _ | m
    · simp only [hbm]; rfl
    · simp only [hbm]
      rcases hs : env.score m (combine_sequences fold.2 s.sequences).1
          (combine_sequences fold.2 s.sequences).2 with _ | sc
      · simp only [hs]; rfl
      · simp only [hs]
        rw [ih]
        rfl

theorem runFolds_derived (env : HmmEnv) (n : ℕ) (seqs : List (List ℤ)) :
    ∀ (folds : List (List ℕ × List ℕ)) (s : Selector) (acc : ℚ)
      (last : Option GModel),
      DerivedFromSeqs seqs s →
      (∀ f ∈ folds, ∀ i ∈ f.1, i < seqs.length) →
      DerivedFromSeqs seqs (runFolds env n folds s acc last).1 := by
  intro folds
  induction folds with
  | nil => intro s acc last hd _; exact hd
  | cons fold rest ih =>
    intro s acc last hd hb
    have hd' : DerivedFromSeqs seqs (setXlen s fold.1) :=
      derived_setXlen hd.1 (hb fold (List.mem_cons_self _ _))
    rw [runFolds]
    rcases hbm : base_model env (setXlen s fold.1) n with _ | m
    · simp only [hbm]; exact hd'
    · simp only [hbm]
      rcases hs : env.score m (combine_sequences fold.2 s.sequences).1
          (combine_sequences fold.2 s.sequences).2 with _ | sc
      · simp only [hs]; exact hd'
      · simp only [hs]
        exact ih (setXlen s fold.1) (acc + sc) (some m) hd'
          (fun f hf => hb f (List.mem_cons_of_mem _ hf))

theorem runFolds_ok_last (env : HmmEnv) (n : ℕ) :
    ∀ (folds : List (List ℕ × List ℕ)) (s : Selector) (acc : ℚ)
      (last : Option GModel) (s' : Selector) (tot : ℚ)
      (last' : Option GModel),
      runFolds env n folds s acc last = (s', Except.ok (tot, last')) →
      last' = last ∨ ∃ t, last' = some ⟨n, t⟩ := by
  intro folds
  induction folds with
  | nil =>
    intro s acc last s' tot last' h
    rw [runFolds] at h
    simp only [Prod.mk.injEq, Except.ok.injEq] at h
    exact Or.inl h.2.2.symm
  | cons fold rest ih =>
    intro s acc last s' tot last' h
    rw [runFolds] at h
    rcases hbm : base_model env (setXlen s fold.1) n with _ | m
    · simp [hbm] at h
    · simp only [hbm] at h
      rcases hs : env.score m (combine_sequences fold.2 s.sequences).1
          (combine_sequences fold.2 s.sequences).2 with _ | sc
      · simp [hs] at h
      · simp only [hs] at h
        obtain ⟨t, rfl⟩ := base_model_shape hbm
        rcases ih (setXlen s fold.1) (acc + sc) (some ⟨n, t⟩) s' tot last' h
          with h1 | h1
        · exact Or.inr ⟨t, h1⟩
        · exact Or.inr h1

theorem runFolds_ok_some (env : HmmEnv) (n : ℕ)
    {folds : List (List ℕ × List ℕ)} {s : Selector} {acc : ℚ}
    {last : Option GModel} {s' : Selector} {tot : ℚ} {last' : Option GModel}
    (hne : folds ≠ [])
    (h : runFolds env n folds s acc last = (s', Except.ok (tot, last'))) :
    ∃ t, last' = some ⟨n, t⟩ := by
  match folds, hne with
  | fold :: rest, _ =>
    rw [runFolds] at h
    rcases hbm : base_model env (setXlen s fold.1) n with _ | m
    · simp [hbm] at h
    · simp only [hbm] at h
      rcases hs : env.score m (combine_sequences fold.2 s.sequences).1
          (combine_sequences fold.2 s.sequences).2 with _ | sc
      · simp [hs] at h
      · simp only [hs] at h
        obtain ⟨t, rfl⟩ := base_model_shape hbm
        rcases runFolds_ok_last env n rest (setXlen s fold.1) (acc + sc)
          (some ⟨n, t⟩) s' tot last' h with h1 | h1
        · exact ⟨t, h1⟩
        · exact h1

theorem cvLoop_derived (env : HmmEnv) (seqs : List (List ℤ)) :
    ∀ (fuel n : ℕ) (s : Selector) (ml : List (Option GModel × ℚ)),
      DerivedFromSeqs seqs s →
      DerivedFromSeqs seqs (cvLoop env fuel n s ml).1 := by
  intro fuel
  induction fuel with
  | zero => intro n s ml hd; exact hd
  | succ fuel ih =>
    intro n s ml hd
    rw [cvLoop]
    rcases hk : kfoldSplit 3 s.sequences.length with _ | folds
    · simp only [hk]; exact hd
    · simp only [hk]
      have hbound : ∀ f ∈ folds, ∀ i ∈ f.1, i < seqs.length := by
        have h' := kfoldSplit_train_lt hk
        rw [hd.1] at h'
        exact h'
      rcases hr : runFolds env n folds s 0 none with ⟨s', e⟩
      have hds' : DerivedFromSeqs seqs s' := by
        have h' := runFolds_derived env n seqs folds s 0 none hd hbound
        rw [hr] at h'
        exact h'
      rcases e with u | ⟨total, last⟩
      · simp only [hr]; exact hds'
      · simp only [hr]
        exact ih (n + 1) s' (ml ++ [(last, total / 3)]) hds'

theorem cvLoop_ok_mem (env : HmmEnv) :
    ∀ (fuel n : ℕ) (s : Selector) (ml : List (Option GModel × ℚ))
      (s' : Selector) (ml' : List (Option GModel × ℚ)),
      cvLoop env fuel n s ml = (s', Except.ok ml') →
      ∀ p ∈ ml', p ∈ ml ∨ ∃ k t, n ≤ k ∧ k < n + fuel ∧ p.1 = some ⟨k, t⟩ := by
  intro fuel
  induction fuel with
  | zero =>
    intro n s ml s' ml' h p hp
    rw [cvLoop] at h
    simp only [Prod.mk.injEq, Except.ok.injEq] at h
    rw [← h.2] at hp
    exact Or.inl hp
  | succ fuel ih =>
    intro n s ml s' ml' h p hp
    rw [cvLoop] at h
    rcases hk : kfoldSplit 3 s.sequences.length with _ | folds
    · simp [hk] at h
    · simp only [hk] at h
      rcases hr : runFolds env n folds s 0 none with ⟨s'', e⟩
      rcases e with u | ⟨total, last⟩
      · simp [hr] at h
      · simp only [hr] at h
        rcases ih (n + 1) s'' (ml ++ [(last, total / 3)]) s' ml' h p hp
          with hin | ⟨k, t, hk1, hk2, hp1⟩
        · rcases List.mem_append.mp hin with h' | h'
          · exact Or.inl h'
          · simp only [List.mem_singleton] at h'
            have hne : folds ≠ [] := by
              have hl := kfoldSplit_length hk
              intro hnil
              rw [hnil] at hl
              simp at hl
            obtain ⟨t, hlast⟩ := runFolds_ok_some env n hne hr
            refine Or.inr ⟨n, t, le_rfl, by omega, ?_⟩
            rw [h', hlast]
        · exact Or.inr ⟨k, t, by omega, by omega, hp1⟩

theorem cvLoop_ok_length (env : HmmEnv) :
    ∀ (fuel n : ℕ) (s : Selector) (ml : List (Option GModel × ℚ))
      (s' : Selector) (ml' : List (Option GModel × ℚ)),
      cvLoop env fuel n s ml = (s', Except.ok ml') →
      ml'.length = ml.length + fuel := by
  intro fuel
  induction fuel with
  | zero =>
    intro n s ml s' ml' h
    rw [cvLoop] at h
    simp only [Prod.mk.injEq, Except.ok.injEq] at h
    rw [← h.2]
    omega
  | succ fuel ih =>
    intro n s ml s' ml' h
    rw [cvLoop] at h
    rcases hk : kfoldSplit 3 s.sequences.length with _ | folds
    · simp [hk] at h
    · simp only [hk] at h
      rcases hr : runFolds env n folds s 0 none with ⟨s'', e⟩
      rcases e with u | ⟨total, last⟩
      · simp [hr] at h
      · simp only [hr] at h
        have := ih (n + 1) s'' (ml ++ [(last, total / 3)]) s' ml' h
        simp only [List.length_append, List.length_singleton] at this
        omega
/-! ### The cross-validation loop when the primitive never fails -/

theorem base_model_setXlen (env : HmmEnv) (s : Selector)
    (fold : List ℕ × List ℕ) (n : ℕ) :
    base_model env (setXlen s fold.1) n = foldFit env s.sequences n fold := rfl

theorem runFolds_success (env : HmmEnv) (n : ℕ)
    (hscore : ∀ m X l, (env.score m X l).isSome) :
    ∀ (folds : List (List ℕ × List ℕ)) (s : Selector) (acc : ℚ)
      (last : Option GModel),
      (∀ f ∈ folds, (foldFit env s.sequences n f).isSome) →
      ∃ s', runFolds env n folds s acc last =
          (s', Except.ok
            (acc +
              (folds.map (fun f => (foldScore env s.sequences n f).getD 0)).sum,
             folds.getLast?.elim last (foldFit env s.sequences n))) ∧
        s'.sequences = s.sequences := by
  intro folds
  induction folds with
  | nil =>
    intro s acc last _
    exact ⟨s, by simp [runFolds, Option.elim], rfl⟩
  | cons fold rest ih =>
    intro s acc last hf
    obtain ⟨m, hm⟩ := Option.isSome_iff_exists.mp
      (hf fold (List.mem_cons_self _ _))
    obtain ⟨sc, hsc⟩ := Option.isSome_iff_exists.mp
      (hscore m (combine_sequences fold.2 s.sequences).1
        (combine_sequences fold.2 s.sequences).2)
    have hfs : foldScore env s.sequences n fold = some sc := by
      unfold foldScore
      rw [hm]
      exact hsc
    have hrest : ∀ f ∈ rest,
        (foldFit env (setXlen s fold.1).sequences n f).isSome := by
      intro f hfm
      exact hf f (List.mem_cons_of_mem _ hfm)
    obtain ⟨s', hs', hseq'⟩ := ih (setXlen s fold.1) (acc + sc) (some m) hrest
    rw [setXlen_sequences] at hs' hseq'
    refine ⟨s', ?_, hseq'⟩
    rw [runFolds, base_model_setXlen, hm]
    simp only [hsc]
    rw [hs']
    cases rest with
    | nil =>
      simp [hfs, Option.elim, add_assoc, hm]
    | cons r rs =>
      have hxS : (r :: rs).getLast?.isSome := by
        rw [List.getLast?_isSome]
        simp
      obtain ⟨x, hx⟩ := Option.isSome_iff_exists.mp hxS
      rw [List.getLast?_cons_cons, hx]
      simp only [Option.elim, List.map_cons, List.sum_cons, hfs,
        Option.getD_some, add_assoc]

theorem cvLoop_success (env : HmmEnv)
    (hscore : ∀ m X l, (env.score m X l).isSome)
    (seqs : List (List ℤ)) (folds : List (List ℕ × List ℕ))
    (hk : kfoldSplit 3 seqs.length = some folds)
    (hfitAll : ∀ n, ∀ f ∈ folds, (foldFit env seqs n f).isSome) :
    ∀ (fuel n : ℕ) (s : Selector) (ml : List (Option GModel × ℚ)),
      s.sequences = seqs →
      ∃ s', cvLoop env fuel n s ml =
          (s', Except.ok (ml ++ (List.range fuel).map (fun i =>
            (cvReprModelSpec env seqs (n + i) folds,
             cvScoreSpec env seqs (n + i) folds)))) ∧
        s'.sequences = seqs := by
  intro fuel
  induction fuel with
  | zero =>
    intro n s ml hseq
    exact ⟨s, by simp [cvLoop], hseq⟩
  | succ fuel ih =>
    intro n s ml hseq
    have hk' : kfoldSplit 3 s.sequences.length = some folds := by
      rw [hseq]; exact hk
    have hne : folds ≠ [] := by
      have hl := kfoldSplit_length hk
      intro hnil
      rw [hnil] at hl
      simp at hl
    have hlastS : folds.getLast?.isSome := by
      rw [List.getLast?_isSome]
      exact hne
    obtain ⟨lastf, hlast⟩ := Option.isSome_iff_exists.mp hlastS
    obtain ⟨s1, hr, hseq1⟩ := runFolds_success env n hscore folds s 0 none
      (by rw [hseq]; exact hfitAll n)
    obtain ⟨s', hloop, hseq'⟩ := ih (n + 1) s1
      (ml ++ [(folds.getLast?.elim none (foldFit env s.sequences n),
               (0 + (folds.map
                 (fun f => (foldScore env s.sequences n f).getD 0)).sum) / 3)])
      (by rw [hseq1, hseq])
    refine ⟨s', ?_, hseq'⟩
    have he : (folds.getLast?.elim none (foldFit env s.sequences n),
          (0 + (folds.map
            (fun f => (foldScore env s.sequences n f).getD 0)).sum) / 3)
        = (cvReprModelSpec env seqs n folds, cvScoreSpec env seqs n folds) := by
      rw [hseq, hlast]
      unfold cvReprModelSpec cvScoreSpec
      rw [hlast]
      simp [Option.elim]
    have hmap : (List.range (fuel + 1)).map (fun i =>
          (cvReprModelSpec env seqs (n + i) folds,
           cvScoreSpec env seqs (n + i) folds))
        = (cvReprModelSpec env seqs n folds, cvScoreSpec env seqs n folds) ::
          (List.range fuel).map (fun i =>
            (cvReprModelSpec env seqs (n + 1 + i) folds,
             cvScoreSpec env seqs (n + 1 + i) folds)) := by
      rw [List.range_succ_eq_map, List.map_cons, List.map_map]
      refine congrArg₂ List.cons ?_ ?_
      · simp
      · apply List.map_congr_left
        intro i _
        simp only [Function.comp_apply]
        have h13 : n + (i + 1) = n + 1 + i := by omega
        rw [h13]
    rw [cvLoop]
    simp only [hk', hr]
    rw [hloop, hmap, he]
    simp [List.append_assoc]

/-! ### The concatenated form derived from the sequence list -/

theorem range_map_getD (l : List (List ℤ)) :
    (List.range l.length).map (fun i => l.getD i []) = l := by
  induction l with
  | nil => rfl
  | cons a t ih =>
    have h1 : (List.range t.length).map
        ((fun i => (a :: t).getD i []) ∘ Nat.succ) = t := by
      have h2 : ∀ i ∈ List.range t.length,
          ((fun i => (a :: t).getD i []) ∘ Nat.succ) i = t.getD i [] := by
        intro i _
        simp [List.getD_cons_succ]
      rw [List.map_congr_left h2, ih]
    rw [List.length_cons, List.range_succ_eq_map, List.map_cons, List.map_map,
      h1]
    rfl

theorem combine_range (l : List (List ℤ)) :
    combine_sequences (List.range l.length) l = (l.flatten, l.map List.length) := by
  unfold combine_sequences
  rw [range_map_getD]
  congr 1
  have h2 : (List.range l.length).map (fun i => (l.getD i []).length)
      = ((List.range l.length).map (fun i => l.getD i [])).map List.length := by
    rw [List.map_map]
    rfl
  rw [h2, range_map_getD]

theorem selInv_derived {s : Selector} (h : SelInv s) :
    DerivedFromSeqs s.sequences s := by
  refine ⟨rfl, List.range s.sequences.length, ?_, ?_, ?_⟩
  · intro i hi; exact List.mem_range.mp hi
  · rw [combine_range]; exact h.1
  · rw [combine_range]; exact h.2

/-! ### Helper lemmas about the recognizer -/

theorem scoreItem_length (env : HmmEnv) (models : List (String × GModel))
    (X : List ℤ) (lengths : List ℕ) :
    (scoreItem env models X lengths).length = models.length := by
  unfold scoreItem
  rw [List.length_map]

theorem scoreItem_mem_key {env : HmmEnv} {models : List (String × GModel)}
    {X : List ℤ} {lengths : List ℕ} {w : String} {v : WithBot ℚ}
    (h : (w, v) ∈ scoreItem env models X lengths) : ∃ m, (w, m) ∈ models := by
  unfold scoreItem at h
  obtain ⟨wm, hwm, heq⟩ := List.mem_map.mp h
  have h1 : wm.1 = w := congrArg Prod.fst heq
  refine ⟨wm.2, ?_⟩
  rw [← h1]
  exact hwm

theorem mapM_recognizeItem (env : HmmEnv) (models : List (String × GModel))
    (hm : models ≠ []) :
    ∀ test_set : List (List ℤ × List ℕ),
      ∃ l, test_set.mapM (recognizeItem env models) = some l ∧
        l.map Prod.fst =
          test_set.map (fun it => scoreItem env models it.1 it.2) ∧
        l.length = test_set.length ∧
        ∀ p ∈ l, IsFirstArgmax p.1 p.2 := by
  intro ts
  induction ts with
  | nil => exact ⟨[], rfl, by simp, rfl, by simp⟩
  | cons it rest ih =>
    obtain ⟨l, hl, hmap, hlen, hfa⟩ := ih
    have hd : scoreItem env models it.1 it.2 ≠ [] := by
      intro h0
      have h1 := scoreItem_length env models it.1 it.2
      rw [h0] at h1
      exact hm (List.length_eq_zero.mp h1.symm)
    obtain ⟨g, hg⟩ := Option.isSome_iff_exists.mp (pyArgmaxKeys_isSome hd)
    have hitem : recognizeItem env models it =
        some (scoreItem env models it.1 it.2, g) := by
      simp only [recognizeItem, hg, Option.map_some']
    refine ⟨(scoreItem env models it.1 it.2, g) :: l, ?_, ?_, ?_, ?_⟩
    · rw [List.mapM_cons, hitem, hl]
      rfl
    · simp [hmap]
    · simp [hlen]
    · intro p hp
      rcases List.mem_cons.mp hp with rfl | hp'
      · exact pyArgmaxKeys_firstArgmax hg
      · exact hfa p hp'
/-! ### Concrete primitives and selectors used by counterexamples and
witnesses -/

/-- A fitting primitive that always fails (every fit raises). -/
def envFail : HmmEnv :=
  { fitTag := fun _ _ _ => none, score := fun _ _ _ => none,
    log := fun _ => 0 }

/-- A primitive where every fit succeeds and every score is `5`. -/
def envConst5 : HmmEnv :=
  { fitTag := fun _ _ _ => some 0, score := fun _ _ _ => some 5,
    log := fun _ => 0 }

/-- A primitive where fits succeed and a model's log-likelihood depends only
on its state count (2 states score `0`, anything else `-10`); `np.log` is
pinned to `0` so the BIC reduces to `-2·logL`. -/
def envBic : HmmEnv :=
  { fitTag := fun _ _ _ => some 0,
    score := fun m _ _ => some (if m.n_components = 2 then 0 else -10),
    log := fun _ => 0 }

/-- A primitive where fitting fails exactly for 3 states and every score
is `1`. -/
def envNo3 : HmmEnv :=
  { fitTag := fun n _ _ => if n = 3 then none else some 0,
    score := fun _ _ _ => some 1, log := fun _ => 0 }

/-- A two-word corpus, word "A" with two one-frame sequences, range [2,3]. -/
def selB : Selector :=
  { words := [("A", ([1, 2], [1, 1])), ("B", ([3], [1]))], this_word := "A",
    sequences := [[1], [2]], X := [1, 2], lengths := [1, 1],
    n_constant := 5, min_n_components := 2, max_n_components := 3 }

/-- A two-word corpus, word "A" with three one-frame sequences, range
[2,2]. -/
def selC : Selector :=
  { words := [("A", ([1, 2, 3], [1, 1, 1])), ("B", ([4], [1]))],
    this_word := "A", sequences := [[1], [2], [3]], X := [1, 2, 3],
    lengths := [1, 1, 1], n_constant := 5, min_n_components := 2,
    max_n_components := 2 }

/-- As `selC` but with candidate range [2,3] (used with `envNo3`). -/
def selC23 : Selector :=
  { selC with max_n_components := 3 }

/-- A word with only two training sequences — fewer than the k = 3 folds. -/
def selTwo : Selector :=
  { words := [("A", ([1, 2], [1, 1]))], this_word := "A",
    sequences := [[1], [2]], X := [1, 2], lengths := [1, 1],
    n_constant := 4, min_n_components := 2, max_n_components := 3 }

/-- The three folds produced by the partitioner on three items. -/
def folds3 : List (List ℕ × List ℕ) := (kfoldSplit 3 3).getD []

/-! ### Claims -/

/-- Claim C1, evaluated at a failing input: both candidates 2 and 3 fit and
score successfully on the word's own data, the stored per-candidate values
are the raw BIC scores 0 and 20, yet `SelectorBIC.select` returns the
model with the maximal stored BIC (state count 3) even though the
successful candidate with state count 2 has the strictly smaller BIC.  The
code takes `max` over scores that rank better models lowest, contradicting
its own docstring ("select the model with the lowest BIC score"). -/
theorem C1_bic_selects_max_bic :
    bicList envBic selB = [(⟨2, 0⟩, 0), (⟨3, 0⟩, 20)] ∧
      selectBIC envBic selB = some ⟨3, 0⟩ ∧ (0 : ℚ) < 20 := by
  refine ⟨?_, ?_, by norm_num⟩ <;>
    norm_num [bicList, selectBIC, candidates, bicStep, base_model, fit,
      scoreBIC, pyArgmaxKeys, pyBest, envBic, selB, List.range_succ]

/-- Claim C2, evaluated at a failing input: with a two-word corpus where the
fitted model scores every dataset at `5`, the score recorded by
`SelectorDIC` for candidate 2 is `5` (the bare own-word log-likelihood),
while the claim's formula — own log-likelihood minus the average score of
the same fitted model on the other words — gives `0`.  The source passes
the integer `n_components` instead of the fitted model to
`calculate_avgscore_otherwords`, so scoring raises for every other word
and the subtracted average is always `0`. -/
theorem C2_dic_records_own_only :
    dicList envConst5 selC = [(⟨2, 0⟩, 5)] ∧
      dicScoreSpec envConst5 selC.words selC.this_word ⟨2, 0⟩ 5 = 0 ∧
      (5 : ℚ) ≠ 0 := by
  refine ⟨?_, ?_, by norm_num⟩
  · simp [dicList, candidates, dicStep, base_model, fit, envConst5, selC,
      List.range_succ, calculate_avgscore_otherwords, pyScore]
  · simp [dicScoreSpec, avgOtherWordsSpec, envConst5, selC]

/-- `base_model` succeeds whenever the fitting primitive does. -/
theorem base_model_isSome (env : HmmEnv) (s : Selector) (n : ℕ)
    (hfit : ∀ k X l, (env.fitTag k X l).isSome) :
    (base_model env s n).isSome := by
  unfold base_model fit
  obtain ⟨t, ht⟩ := Option.isSome_iff_exists.mp (hfit n s.X s.lengths)
  rw [ht]
  rfl

/-- Claim C3, counterexample: with a fitting primitive that always fails,
every selector hands a `None` (Failure) result back to its caller —
`select()` does not always return a model. -/
theorem C3_counterexample :
    selectConstant envFail selTwo = none ∧ selectBIC envFail selTwo = none ∧
      selectDIC envFail selTwo = none ∧
      (selectCV envFail selTwo).2 = Except.ok none := by
  refine ⟨rfl, rfl, rfl, rfl⟩

/-- Claim C3, amended: each selector falls back to fitting with the
fallback state count when no candidate succeeds, and that fallback fit's
result — which is `None` exactly when the fallback fit itself fails — is
what the caller receives.  Hence whenever the fitting primitive succeeds
(and, for the cross-validated selector, the candidate range is non-empty),
every selector returns some model. -/
theorem C3_selectors_return_models (env : HmmEnv) (s : Selector)
    (hfit : ∀ n X l, (env.fitTag n X l).isSome)
    (hrange : s.min_n_components ≤ s.max_n_components) :
    (selectConstant env s).isSome ∧ (selectBIC env s).isSome ∧
      (selectDIC env s).isSome ∧
      ∃ m, (selectCV env s).2 = Except.ok (some m) := by
  refine ⟨base_model_isSome env s s.n_constant hfit, ?_, ?_, ?_⟩
  · unfold selectBIC
    rcases h : pyArgmaxKeys (bicList env s) with _ | m
    · exact base_model_isSome env s s.n_constant hfit
    · rfl
  · unfold selectDIC
    rcases h : pyArgmaxKeys (dicList env s) with _ | m
    · exact base_model_isSome env s s.n_constant hfit
    · rfl
  · unfold selectCV
    rcases hcv : cvLoop env (s.max_n_components + 1 - s.min_n_components)
        s.min_n_components s [] with ⟨s1, e⟩
    rcases e with u | ml
    · simp only [hcv]
      obtain ⟨m, hm⟩ := Option.isSome_iff_exists.mp
        (base_model_isSome env s1 s.n_constant hfit)
      exact ⟨m, by rw [hm]⟩
    · have hlen : ml.length =
          0 + (s.max_n_components + 1 - s.min_n_components) :=
        cvLoop_ok_length env _ _ s [] s1 ml hcv
      have hne : ml ≠ [] := by
        intro h0
        rw [h0] at hlen
        simp at hlen
        omega
      obtain ⟨k, hk⟩ := Option.isSome_iff_exists.mp (pyArgmaxKeys_isSome hne)
      obtain ⟨v, hkv, _⟩ := pyArgmaxKeys_mem hk
      rcases cvLoop_ok_mem env _ _ s [] s1 ml hcv (k, v) hkv with h0 | h0
      · exact absurd h0 (List.not_mem_nil _)
      · obtain ⟨j, t, _, _, hkey⟩ := h0
        have hkey' : k = some ⟨j, t⟩ := hkey
        simp only [hcv, hk, hkey']
        exact ⟨⟨j, t⟩, rfl⟩

/-- Claim C3, witness: at a concrete always-succeeding primitive all four
selectors return a model. -/
theorem C3_witness :
    (selectConstant envConst5 selC).isSome ∧
      (selectBIC envConst5 selC).isSome ∧ (selectDIC envConst5 selC).isSome ∧
      ∃ m, (selectCV envConst5 selC).2 = Except.ok (some m) :=
  C3_selectors_return_models envConst5 selC (fun _ _ _ => rfl) (le_refl 2)

/-- Claim C4, counterexample: with an empty model mapping and a non-empty
test set, `recognize` raises out of the per-item `max` instead of
returning the two lists the claim promises. -/
theorem C4_counterexample : recognize envConst5 [] [([1], [1])] = none := rfl

/-- Claim C4, amended: for every NON-EMPTY model mapping of size v and
every test set of m items, `recognize` returns a probabilities list of
length m and a guesses list of length m ordered by test-item index, each
score map has exactly v entries and each guess is a key of the mapping
(with an empty mapping the call completes only on an empty test set). -/
theorem C4_recognize_shape (env : HmmEnv) (models : List (String × GModel))
    (test_set : List (List ℤ × List ℕ)) (hm : models ≠ []) :
    ∃ probs guesses, recognize env models test_set = some (probs, guesses) ∧
      probs = test_set.map (fun it => scoreItem env models it.1 it.2) ∧
      probs.length = test_set.length ∧ guesses.length = test_set.length ∧
      (∀ d ∈ probs, d.length = models.length) ∧
      ∀ g ∈ guesses, ∃ m, (g, m) ∈ models := by
  obtain ⟨l, hl, hmap, hlen, hfa⟩ := mapM_recognizeItem env models hm test_set
  refine ⟨l.map Prod.fst, l.map Prod.snd, ?_, hmap, ?_, ?_, ?_, ?_⟩
  · unfold recognize
    rw [hl]
    rfl
  · rw [hmap, List.length_map]
  · rw [List.length_map, hlen]
  · intro d hd
    rw [hmap] at hd
    obtain ⟨it, _, hit⟩ := List.mem_map.mp hd
    rw [← hit]
    exact scoreItem_length env models it.1 it.2
  · intro g hg
    obtain ⟨p, hp, hp2⟩ := List.mem_map.mp hg
    obtain ⟨v, l₁, l₂, hsplit, _, _⟩ := hfa p hp
    have hmem : (p.2, v) ∈ p.1 := by
      rw [hsplit]
      simp
    have hp1 : p.1 ∈ l.map Prod.fst := List.mem_map_of_mem _ hp
    rw [hmap] at hp1
    obtain ⟨it, _, hit⟩ := List.mem_map.mp hp1
    rw [← hit] at hmem
    rw [← hp2]
    exact scoreItem_mem_key hmem

/-- Claim C4, witness: at a concrete one-word mapping and one-item test set
the amended shape holds. -/
theorem C4_witness :
    ∃ probs guesses,
      recognize envConst5 [("A", ⟨2, 0⟩)] [([1], [1])] =
        some (probs, guesses) ∧
      probs = [([([1], [1])].map
        (fun it => scoreItem envConst5 [("A", ⟨2, 0⟩)] it.1 it.2))].flatten ∧
      probs.length = 1 ∧ guesses.length = 1 ∧
      (∀ d ∈ probs, d.length = 1) ∧
      ∀ g ∈ guesses, ∃ m, (g, m) ∈ [("A", (⟨2, 0⟩ : GModel))] := by
  obtain ⟨probs, guesses, h1, h2, h3, h4, h5, h6⟩ :=
    C4_recognize_shape envConst5 [("A", ⟨2, 0⟩)] [([1], [1])]
      (List.cons_ne_nil _ _)
  exact ⟨probs, guesses, h1, by rw [h2]; rfl, h3, h4, h5, h6⟩

/-- `scoreItem` records `-inf` (`⊥`) at position `j` exactly when the
`j`-th model's scoring fails. -/
theorem scoreItem_failure (env : HmmEnv) (models : List (String × GModel))
    (X : List ℤ) (lengths : List ℕ) (j : ℕ) (w : String) (m : GModel)
    (hj : models[j]? = some (w, m)) (hs : env.score m X lengths = none) :
    (scoreItem env models X lengths)[j]? = some (w, ⊥) := by
  unfold scoreItem
  rw [List.getElem?_map, hj]
  simp [hs]

/-- Claim C5: a per-model scoring failure records negative infinity for
that word and never aborts the item — `recognize` still returns a full
score map per item (the map over all models), and each item's guess is
the first word attaining the maximum recorded score in mapping iteration
order. -/
theorem C5_per_model_failure (env : HmmEnv)
    (models : List (String × GModel)) (test_set : List (List ℤ × List ℕ))
    (hm : models ≠ []) :
    ∃ probs guesses, recognize env models test_set = some (probs, guesses) ∧
      probs = test_set.map (fun it => scoreItem env models it.1 it.2) ∧
      (∀ (X : List ℤ) (lengths : List ℕ) (j : ℕ) (w : String) (m : GModel),
        models[j]? = some (w, m) →
        env.score m X lengths = none →
        (scoreItem env models X lengths)[j]? = some (w, (⊥ : WithBot ℚ))) ∧
      ∀ (i : ℕ) (d : List (String × WithBot ℚ)) (g : String),
        probs[i]? = some d → guesses[i]? = some g →
        IsFirstArgmax d g := by
  obtain ⟨l, hl, hmap, hlen, hfa⟩ := mapM_recognizeItem env models hm test_set
  refine ⟨l.map Prod.fst, l.map Prod.snd, ?_, hmap,
    fun X lengths j w m hj hs => scoreItem_failure env models X lengths j w m hj hs,
    ?_⟩
  · unfold recognize
    rw [hl]
    rfl
  · intro i d g hd hg
    rw [List.getElem?_map] at hd hg
    rcases hp : l[i]? with _ | p
    · rw [hp] at hd
      exact absurd hd (by simp)
    · rw [hp] at hd hg
      simp only [Option.map_some', Option.some.injEq] at hd hg
      have hpl : p ∈ l := List.getElem?_mem hp
      have := hfa p hpl
      rw [hd] at this
      rw [hg] at this
      exact this

/-- Claim C5, witness: concrete instantiation at a one-word mapping. -/
theorem C5_witness :
    ∃ probs guesses,
      recognize envConst5 [("B", ⟨3, 1⟩)] [([2], [1])] =
        some (probs, guesses) ∧
      probs = [([2], [1])].map
        (fun it => scoreItem envConst5 [("B", ⟨3, 1⟩)] it.1 it.2) ∧
      (∀ (X : List ℤ) (lengths : List ℕ) (j : ℕ) (w : String) (m : GModel),
        ([("B", (⟨3, 1⟩ : GModel))])[j]? = some (w, m) →
        envConst5.score m X lengths = none →
        (scoreItem envConst5 [("B", ⟨3, 1⟩)] X lengths)[j]? =
          some (w, (⊥ : WithBot ℚ))) ∧
      ∀ (i : ℕ) (d : List (String × WithBot ℚ)) (g : String),
        probs[i]? = some d → guesses[i]? = some g →
        IsFirstArgmax d g :=
  C5_per_model_failure envConst5 [("B", ⟨3, 1⟩)] [([2], [1])]
    (List.cons_ne_nil _ _)

/-- Claim C10: with a non-empty test set and an empty model mapping, the
per-item best-guess computation takes `max` over an empty score map and
raises — `recognize` produces no result. -/
theorem C10_empty_models (env : HmmEnv) (test_set : List (List ℤ × List ℕ))
    (ht : test_set ≠ []) : recognize env [] test_set = none := by
  cases test_set with
  | nil => exact absurd rfl ht
  | cons it rest =>
    unfold recognize
    rw [List.mapM_cons]
    rfl

/-- Claim C10, witness: concrete empty-mapping call on one test item. -/
theorem C10_witness : recognize envBic [] [([2], [1])] = none :=
  C10_empty_models envBic [([2], [1])] (List.cons_ne_nil _ _)

/-- Claim C6: when the word has fewer than k = 3 training sequences, the
fold partitioner raises on first use inside the `try`, the handler runs
with the selector state untouched, and `SelectorCV.select` returns exactly
the Constant selector's result (the fallback-state-count fit). -/
theorem C6_cv_constant_fallback (env : HmmEnv) (s : Selector)
    (hlen : s.sequences.length < 3)
    (hrange : s.min_n_components ≤ s.max_n_components) :
    selectCV env s = (s, Except.ok (selectConstant env s)) := by
  obtain ⟨k, hk⟩ : ∃ k,
      s.max_n_components + 1 - s.min_n_components = k + 1 :=
    ⟨s.max_n_components - s.min_n_components, by omega⟩
  unfold selectCV
  rw [hk, cvLoop, kfoldSplit_none hlen]
  rfl

/-- Claim C6, witness: a two-sequence word with range [2,3] falls back to
the Constant selector's result. -/
theorem C6_witness :
    selectCV envConst5 selTwo =
      (selTwo, Except.ok (selectConstant envConst5 selTwo)) :=
  C6_cv_constant_fallback envConst5 selTwo (by decide) (by decide)

/-- Claim C7, counterexample: the two-representation invariant holds at
construction for `selC`, but after `SelectorCV.select` runs, the
selector's concatenated form describes only the final fold's training
partition — the invariant is violated "during selection". -/
theorem C7_counterexample :
    SelInv selC ∧ ¬SelInv (selectCV envConst5 selC).1 := by
  constructor <;> decide

/-- Claim C7, amended: the concatenated form is always *derived* from the
sequence list by `combine_sequences` at some in-range index list — but
`SelectorCV.select` reassigns it to fold training partitions, so after
selection it need not describe all of the word's frames (only Constant,
BIC and DIC selection leave the state untouched, their `select` functions
not writing state at all). -/
theorem C7_cv_state_derived (env : HmmEnv) (s : Selector) (h : SelInv s) :
    DerivedFromSeqs s.sequences (selectCV env s).1 := by
  have hd := selInv_derived h
  unfold selectCV
  rcases hcv : cvLoop env (s.max_n_components + 1 - s.min_n_components)
      s.min_n_components s [] with ⟨s1, e⟩
  have hd1 : DerivedFromSeqs s.sequences s1 := by
    have h1 := cvLoop_derived env s.sequences
      (s.max_n_components + 1 - s.min_n_components) s.min_n_components s [] hd
    rw [hcv] at h1
    exact h1
  rcases e with u | ml
  · simp only [hcv]
    exact hd1
  · rcases hpm : pyArgmaxKeys ml with _ | k
    · simp only [hcv, hpm]
      exact hd1
    · rcases k with _ | m <;> simp only [hcv, hpm] <;> exact hd1

/-- Claim C7, witness: concrete instantiation at `selC`. -/
theorem C7_witness :
    DerivedFromSeqs selC.sequences (selectCV envConst5 selC).1 :=
  C7_cv_state_derived envConst5 selC (by decide)

/-- Claim C9: whenever any of the four selectors returns a model, its
hidden-state count lies in the closed candidate interval or equals the
fallback constant — never outside both. -/
theorem C9_state_count_in_range (env : HmmEnv) (s : Selector) :
    (∀ m, selectConstant env s = some m → m.n_components = s.n_constant) ∧
      (∀ m, selectBIC env s = some m → okState s m) ∧
      (∀ m, selectDIC env s = some m → okState s m) ∧
      ∀ m, (selectCV env s).2 = Except.ok (some m) → okState s m := by
  refine ⟨?_, ?_, ?_, ?_⟩
  · intro m hm
    obtain ⟨t, rfl⟩ := base_model_shape hm
    rfl
  · intro m hm
    unfold selectBIC at hm
    rcases hpm : pyArgmaxKeys (bicList env s) with _ | k
    · simp only [hpm] at hm
      obtain ⟨t, rfl⟩ := base_model_shape hm
      exact Or.inr rfl
    · simp only [hpm, Option.some.injEq] at hm
      obtain ⟨v, hkv, _⟩ := pyArgmaxKeys_mem hpm
      obtain ⟨n, hn, hnc⟩ := bicList_mem env s (k, v) hkv
      have hb := mem_candidates.mp hn
      have hnc' : k.n_components = n := hnc
      rw [← hm]
      exact Or.inl ⟨by omega, by omega⟩
  · intro m hm
    unfold selectDIC at hm
    rcases hpm : pyArgmaxKeys (dicList env s) with _ | k
    · simp only [hpm] at hm
      obtain ⟨t, rfl⟩ := base_model_shape hm
      exact Or.inr rfl
    · simp only [hpm, Option.some.injEq] at hm
      obtain ⟨v, hkv, _⟩ := pyArgmaxKeys_mem hpm
      obtain ⟨n, hn, hnc⟩ := dicList_mem env s (k, v) hkv
      have hb := mem_candidates.mp hn
      have hnc' : k.n_components = n := hnc
      rw [← hm]
      exact Or.inl ⟨by omega, by omega⟩
  · intro m hm
    unfold selectCV at hm
    rcases hcv : cvLoop env (s.max_n_components + 1 - s.min_n_components)
        s.min_n_components s [] with ⟨s1, e⟩
    rcases e with u | ml
    · simp only [hcv, Except.ok.injEq] at hm
      obtain ⟨t, rfl⟩ := base_model_shape hm
      exact Or.inr rfl
    · rcases hpm : pyArgmaxKeys ml with _ | k
      · simp [hcv, hpm] at hm
      · rcases k with _ | m'
        · simp [hcv, hpm] at hm
        · simp only [hcv, hpm, Except.ok.injEq, Option.some.injEq] at hm
          obtain ⟨v, hkv, _⟩ := pyArgmaxKeys_mem hpm
          rcases cvLoop_ok_mem env _ _ s [] s1 ml hcv (some m', v) hkv
            with h0 | h0
          · exact absurd h0 (List.not_mem_nil _)
          · obtain ⟨j, t, hj1, hj2, hkey⟩ := h0
            have hk' : some m' = some (⟨j, t⟩ : GModel) := hkey
            simp only [Option.some.injEq] at hk'
            rw [← hm, hk']
            have hcomp : (⟨j, t⟩ : GModel).n_components = j := rfl
            exact Or.inl ⟨by omega, by omega⟩

/-- Claim C9, witness: the BIC selector at a concrete input returns a model
whose state count satisfies the range-or-fallback property. -/
theorem C9_witness : okState selC ⟨2, 0⟩ :=
  (C9_state_count_in_range envConst5 selC).2.1 ⟨2, 0⟩ rfl

/-- Claim C8, counterexample: with fits failing only at 3 states, candidate
2's three folds all fit and score successfully, yet the failing first fold
of candidate 3 aborts the entire while-loop and `SelectorCV.select`
returns the fallback-constant model (5 states) instead of the recorded
model for the fully-successful candidate 2. -/
theorem C8_counterexample :
    (folds3.all fun f =>
        (foldScore envNo3 selC23.sequences 2 f).isSome) = true ∧
      (selectCV envNo3 selC23).2 = Except.ok (some ⟨5, 0⟩) ∧
      cvReprModelSpec envNo3 selC23.sequences 2 folds3 = some ⟨2, 0⟩ ∧
      (⟨5, 0⟩ : GModel) ≠ ⟨2, 0⟩ := by
  refine ⟨by decide, rfl, by decide, by decide⟩

/-- Claim C8, amended: when the word has at least 3 sequences and EVERY
candidate's every fold fits and scores successfully, the recorded CV score
of each candidate `n` is the sum of its three held-out fold
log-likelihoods divided by 3, the recorded representative model is the one
fit on the final fold's training partition, and `select()` returns the
recorded model of maximal CV score.  (A failure at any fold of any
candidate instead abandons every recorded candidate and returns the
fallback fit.) -/
theorem C8_cv_all_success (env : HmmEnv) (s : Selector)
    (folds : List (List ℕ × List ℕ))
    (hfit : ∀ n X l, (env.fitTag n X l).isSome)
    (hscore : ∀ m X l, (env.score m X l).isSome)
    (hrange : s.min_n_components ≤ s.max_n_components)
    (hk : kfoldSplit 3 s.sequences.length = some folds) :
    ∃ nstar ∈ candidates s,
      (selectCV env s).2 =
        Except.ok (cvReprModelSpec env s.sequences nstar folds) ∧
      ∀ n ∈ candidates s,
        cvScoreSpec env s.sequences n folds ≤
          cvScoreSpec env s.sequences nstar folds := by
  have hfitAll : ∀ (n : ℕ) (f : List ℕ × List ℕ),
      (foldFit env s.sequences n f).isSome := by
    intro n f
    unfold foldFit fit
    obtain ⟨t, ht⟩ := Option.isSome_iff_exists.mp
      (hfit n (combine_sequences f.1 s.sequences).1
        (combine_sequences f.1 s.sequences).2)
    rw [ht]
    rfl
  obtain ⟨s1, hcv, hseq1⟩ := cvLoop_success env hscore s.sequences folds hk
    (fun n f _ => hfitAll n f)
    (s.max_n_components + 1 - s.min_n_components) s.min_n_components s [] rfl
  rw [List.nil_append] at hcv
  have hLc : (List.range (s.max_n_components + 1 - s.min_n_components)).map
      (fun i =>
        (cvReprModelSpec env s.sequences (s.min_n_components + i) folds,
         cvScoreSpec env s.sequences (s.min_n_components + i) folds))
      = (candidates s).map (fun n =>
        (cvReprModelSpec env s.sequences n folds,
         cvScoreSpec env s.sequences n folds)) := by
    unfold candidates
    rw [List.map_map]
    apply List.map_congr_left
    intro i _
    simp only [Function.comp_apply]
    rw [Nat.add_comm]
  rw [hLc] at hcv
  have hne : (candidates s).map (fun n =>
      (cvReprModelSpec env s.sequences n folds,
       cvScoreSpec env s.sequences n folds)) ≠ [] := by
    intro h0
    exact candidates_ne_nil hrange (List.map_eq_nil_iff.mp h0)
  obtain ⟨key, hkey⟩ := Option.isSome_iff_exists.mp (pyArgmaxKeys_isSome hne)
  obtain ⟨v, hkv, hmax⟩ := pyArgmaxKeys_mem hkey
  obtain ⟨nstar, hns, hpair⟩ := List.mem_map.mp hkv
  have hkeyr : key = cvReprModelSpec env s.sequences nstar folds :=
    (congrArg Prod.fst hpair).symm
  have hvr : v = cvScoreSpec env s.sequences nstar folds :=
    (congrArg Prod.snd hpair).symm
  have hfne : folds ≠ [] := by
    have hl := kfoldSplit_length hk
    intro h0
    rw [h0] at hl
    simp at hl
  obtain ⟨lastf, hlast⟩ := Option.isSome_iff_exists.mp
    (List.getLast?_isSome.mpr hfne)
  have hrepr : cvReprModelSpec env s.sequences nstar folds =
      foldFit env s.sequences nstar lastf := by
    unfold cvReprModelSpec
    rw [hlast]
    rfl
  have hreprSome : (cvReprModelSpec env s.sequences nstar folds).isSome := by
    rw [hrepr]
    exact hfitAll nstar lastf
  obtain ⟨mrep, hmrep⟩ := Option.isSome_iff_exists.mp hreprSome
  refine ⟨nstar, hns, ?_, ?_⟩
  · unfold selectCV
    rw [hkeyr, hmrep] at hkey
    simp only [hcv, hkey]
    rw [hmrep]
  · intro n hn
    have hmem := List.mem_map_of_mem (fun n =>
      (cvReprModelSpec env s.sequences n folds,
       cvScoreSpec env s.sequences n folds)) hn
    have hle := hmax _ hmem
    rw [hvr] at hle
    exact hle

/-- Claim C8, witness: concrete all-success instantiation. -/
theorem C8_witness :
    ∃ nstar ∈ candidates selC,
      (selectCV envConst5 selC).2 =
        Except.ok (cvReprModelSpec envConst5 selC.sequences nstar folds3) ∧
      ∀ n ∈ candidates selC,
        cvScoreSpec envConst5 selC.sequences n folds3 ≤
          cvScoreSpec envConst5 selC.sequences nstar folds3 :=
  C8_cv_all_success envConst5 selC folds3 (fun _ _ _ => rfl) (fun _ _ _ => rfl)
    (by decide) (by decide)
